import Mathlib

/-!
A verification development for a small Go document database
(HTTP layer, pebble persistence and JSON (de)serialization are external
collaborators and are modelled as given).  The definitions below are shallow
embeddings of the program's own functions:

* `getPathValues`  — the path flattener producing `path=value` index keys;
* `Query.matchDoc` — the predicate matcher (`Query.match` in the source);
* `getPath`        — path traversal over a document;
* `parseQueryGo`   — the query-string parser `parseQuery`;
* `indexDoc` / `reIndexRun` / `lookupIds` — secondary index maintenance
  (`Server.index`, `Server.reIndex`, `Server.lookup`);
* `searchRun`      — the search coordinator (`Server.searchDocument`);
* `addDocumentRun` — ingestion (`Server.addDocument`).

Modelling conventions, fixed once here:
* Documents reaching these functions come from `json.Unmarshal` into
  `map[string]any`, so object fields are string-keyed, numbers are `float64`,
  and the other runtime types are string, bool, nil, map, slice.  A Go map is
  unordered; we embed a document object as an association list, fixing one
  iteration order (the source's emission order is unspecified).
* Numbers are embedded as the integral subset of `float64`, written `Int`
  (exact in IEEE double throughout the range used here); comparison results
  are computed in `Rat`, which coincides with `float64` arithmetic on the
  exactly representable decimal values appearing in this development.
* `strconv.ParseFloat` is modelled for plain decimal numerals (optional sign,
  digits, optional fraction); exponent/hex/inf forms are outside the inputs
  considered.
* Go byte-slice values stored in the index are embedded as `List Char`
  (all values involved are ASCII, where bytes and runes coincide).
* A Go runtime panic (index out of range) is a distinguished outcome
  `ParseOutcome.crash`, not an error return.
-/

/-- A JSON-like document value as produced by `json.Unmarshal` into `any`. -/
inductive DocValue where
  | str (s : String)
  | num (n : Int)
  | bool (b : Bool)
  | null
  | obj (fields : List (String × DocValue))
  | arr (elems : List DocValue)
deriving Repr

/-- A decoded document: the `map[string]any` at top level. -/
abbrev Doc := List (String × DocValue)

/-- Insertion by key order, used to render Go maps (Go's `fmt` prints map
keys in sorted order). -/
def insertByKey (p : String × String) : List (String × String) → List (String × String)
  | [] => [p]
  | q :: rest => if q.1 < p.1 then q :: insertByKey p rest else p :: q :: rest

/-- Sort formatted map entries by key, as Go's `fmt` does before printing. -/
def sortByKey : List (String × String) → List (String × String)
  | [] => []
  | p :: rest => insertByKey p (sortByKey rest)

/-- Join with single spaces, as inside Go's `map[...]` / `[...]` rendering. -/
def joinSp (l : List String) : String := String.intercalate " " l

mutual
/-- The default (`%v`) Go textual form of a value: strings verbatim, integral
floats without decimal point, booleans as true/false, nil as `<nil>`,
maps as `map[k:v ...]` with sorted keys, slices as `[v ...]`. -/
def goFmtV : DocValue → String
  | .str s => s
  | .num n => toString n
  | .bool b => if b then "true" else "false"
  | .null => "<nil>"
  | .obj t => "map[" ++ joinSp ((sortByKey (goFmtFields t)).map (fun p => p.1 ++ ":" ++ p.2)) ++ "]"
  | .arr l => "[" ++ joinSp (goFmtList l) ++ "]"

/-- Format each field value of an object (helper of `goFmtV`). -/
def goFmtFields : List (String × DocValue) → List (String × String)
  | [] => []
  | (k, v) :: r => (k, goFmtV v) :: goFmtFields r

/-- Format each element of an array (helper of `goFmtV`). -/
def goFmtList : List DocValue → List String
  | [] => []
  | v :: r => goFmtV v :: goFmtList r
end

/-- `fmt.Sprint("%v", value)` as written in `Query.match`: `fmt.Sprint`
concatenates the default forms of its operands (no space is inserted next to
a string operand), so the literal text `%v` is prepended to the value's
default form rather than acting as a format specifier. -/
def goSprintVBug (v : DocValue) : String := "%v" ++ goFmtV v

mutual
/-- `getPathValues(obj, prefix)`: walks the object's fields; recurses into
object fields passing the field's key as the new prefix, skips array fields
entirely, and emits `path=value` for scalar fields, where the path prepends
the accumulated prefix (when nonempty) with a dot. -/
def getPathValues : List (String × DocValue) → String → List String
  | [], _ => []
  | (key, value) :: rest, pfx => gpvEntry key value pfx ++ getPathValues rest pfx

/-- The body of `getPathValues`' loop for one field (the `switch` on the
field's value followed by the scalar emission). -/
def gpvEntry (key : String) (value : DocValue) (pfx : String) : List String :=
  match value with
  | .obj t => getPathValues t key
  | .arr _ => []
  | v => [(if pfx = "" then key else pfx ++ "." ++ key) ++ "=" ++ goFmtV v]
end

/-- Go map lookup on an embedded object (first matching key). -/
def lookupField : List (String × DocValue) → String → Option DocValue
  | [], _ => none
  | (k, v) :: rest, key => if k = key then some v else lookupField rest key

/-- The traversal loop of `getPath`: each path part requires the current
segment to be an object and the part to be present. -/
def getPathAux : DocValue → List String → Option DocValue
  | v, [] => some v
  | v, part :: parts =>
    match v with
    | .obj m =>
      match lookupField m part with
      | some v' => getPathAux v' parts
      | none => none
    | _ => none

/-- `getPath(doc, parts)`: resolve a dotted path in a document; `none` models
Go's `(nil, false)` return. -/
def getPath (doc : Doc) (parts : List String) : Option DocValue :=
  getPathAux (.obj doc) parts

/-- Digits to a natural number. -/
def digitsToNat (cs : List Char) : Nat :=
  cs.foldl (fun n c => n * 10 + (c.toNat - '0'.toNat)) 0

/-- All characters are ASCII decimal digits. -/
def allDigits (cs : List Char) : Bool :=
  cs.all (fun c => decide ('0' ≤ c) && decide (c ≤ '9'))

/-- `strconv.ParseFloat(s, 64)` modelled for plain decimal numerals
(optional sign, integer digits, optional fraction digits, at least one digit);
`none` models a parse error (Go then returns value 0 alongside the error). -/
def parseFloatQ (s : String) : Option Rat :=
  let p : Int × List Char :=
    match s.data with
    | '-' :: t => (-1, t)
    | '+' :: t => (1, t)
    | cs => (1, cs)
  match (p.2.splitOn '.') with
  | [ip] =>
    if ip ≠ [] ∧ allDigits ip then some (mkRat (p.1 * (digitsToNat ip : Int)) 1) else none
  | [ip, fp] =>
    if (ip ≠ [] ∨ fp ≠ []) ∧ allDigits ip ∧ allDigits fp then
      some (mkRat (p.1 * ((digitsToNat ip * 10 ^ fp.length + digitsToNat fp : Nat) : Int))
        (10 ^ fp.length))
    else none
  | _ => none

/-- One comparison of a parsed query: path segments, literal value text, and
the operator string (`"="`, `">"` or `"<"`), exactly as in the source. -/
structure QueryComparison where
  key : List String
  value : String
  op : String
deriving Repr, DecidableEq

/-- A parsed query: the conjunction of its comparisons. -/
structure Query where
  ands : List QueryComparison
deriving Repr, DecidableEq

/-- The ordering tail of `Query.match`: `>` demands strictly greater,
any other (non-equality) operator falls through to the strictly-less check. -/
def cmpOp (op : String) (l r : Rat) : Bool :=
  if op = ">" then decide (l > r) else decide (l < r)

/-- `Query.match(doc)`: every comparison must hold.  Equality compares
`fmt.Sprint("%v", value)` with the literal byte-for-byte.  Ordering parses
the literal as a float *without checking the error* (an unparsable literal
leaves `right = 0`), coerces numeric values directly, parses string values
(failing the comparison on error), and fails on any other type. -/
def Query.matchDoc (q : Query) (doc : Doc) : Bool :=
  q.ands.all (fun a =>
    match getPath doc a.key with
    | none => false
    | some v =>
      if a.op = "=" then goSprintVBug v == a.value
      else
        let right : Rat := (parseFloatQ a.value).getD 0
        match v with
        | .num n => cmpOp a.op (n : Rat) right
        | .str s =>
          match parseFloatQ s with
          | none => false
          | some left => cmpOp a.op left right
        | _ => false)

/-- `strings.Split(s, sep)` for a single-character separator, at the
character level: split into the (never empty) list of separator-free chunks;
splitting the empty string gives one empty chunk, a trailing separator a
trailing empty chunk. -/
def splitOnC (sep : Char) : List Char → List (List Char)
  | [] => [[]]
  | c :: rest =>
    if c = sep then [] :: splitOnC sep rest
    else
      match splitOnC sep rest with
      | t :: ts => (c :: t) :: ts
      | [] => [[c]]

/-- `strings.Split(s, ",")`, the decoding of a stored index entry. -/
def splitC : List Char → List (List Char) := splitOnC ','

/-- `strings.Split(key, ".")`, the path-segment split of a parsed key. -/
def goSplitDot (s : String) : List String := (splitOnC '.' s.data).map String.mk

/-- `unicode.IsSpace` restricted to the Latin-1 range (all inputs considered
here are ASCII). -/
def goIsSpace (c : Char) : Bool :=
  c = ' ' || c = '\t' || c = '\n' || c = '\x0b' || c = '\x0c' || c = '\r' ||
    c = '\u0085' || c = '\u00A0'

/-- `unicode.IsLetter` restricted to ASCII (all inputs considered are ASCII). -/
def goIsLetter (c : Char) : Bool :=
  (decide ('a' ≤ c) && decide (c ≤ 'z')) || (decide ('A' ≤ c) && decide (c ≤ 'Z'))

/-- `unicode.IsDigit` restricted to ASCII. -/
def goIsDigit (c : Char) : Bool :=
  decide ('0' ≤ c) && decide (c ≤ '9')

/-- Result of `lexString`: a token with the next index, or an error at an
index (`err` carries the post-scan index Go returns alongside the error). -/
inductive LexResult where
  | ok (s : String) (next : Nat)
  | err (next : Nat)
deriving Repr, DecidableEq

/-- The quoted-string scan of `lexString`: the argument list is the input
from absolute position `idx` on; every character up to the next `"` is taken
literally, reaching the end without one is an error. -/
def lexQuotedAux : List Char → Nat → List Char → LexResult
  | [], idx, _ => .err idx
  | c :: rest, idx, acc =>
    if c = '"' then .ok (String.mk acc) (idx + 1)
    else lexQuotedAux rest (idx + 1) (acc ++ [c])

/-- The unquoted scan of `lexString`: consume contiguous letters, digits and
dots, starting at absolute position `idx` (first argument is the input from
`idx` on). -/
def lexUnquotedAux : List Char → Nat → List Char → String × Nat
  | [], idx, acc => (String.mk acc, idx)
  | c :: rest, idx, acc =>
    if goIsLetter c || goIsDigit c || c = '.' then lexUnquotedAux rest (idx + 1) (acc ++ [c])
    else (String.mk acc, idx)

/-- `lexString(input, idx)`: at or past the end yields an empty token with no
error; a `"` starts a quoted string; otherwise an unquoted run, which is an
error when empty. -/
def lexString (input : List Char) (idx : Nat) : LexResult :=
  match input.drop idx with
  | [] => .ok "" idx
  | c :: rest =>
    if c = '"' then lexQuotedAux rest (idx + 1) []
    else
      let r := lexUnquotedAux (c :: rest) idx []
      if r.1 = "" then .err r.2 else .ok r.1 r.2

/-- Outcome of `parseQuery`: a parsed query, a parse error carrying the
offending index, or a runtime crash (Go index-out-of-range panic). -/
inductive ParseOutcome where
  | ok (q : Query)
  | error (pos : Nat)
  | crash
deriving Repr, DecidableEq

/-- The whitespace-eating loop of `parseQuery` (first argument is the input
from absolute position `i` on).  The loop indexes `qRune[i]` with no bound
check, so running off the end is a crash (`none`). -/
def eatWs : List Char → Nat → Option Nat
  | [], _ => none
  | c :: rest, i => if goIsSpace c then eatWs rest (i + 1) else some i

/-- The main loop of `parseQuery` over rune index `i`.  Each unchecked
byte access `q[...]` at or past the end is a crash.  Lex errors are turned
into parse errors by a message formatter that itself indexes `q[nextIdx]`,
so a lex error whose index is at the end is also a crash.  The fuel
argument bounds the loop; each iteration consumes at least one character,
so `q.length + 1` is never exhausted. -/
def parseLoop (q : List Char) : Nat → List QueryComparison → Nat → ParseOutcome
  | 0, _, _ => .crash
  | fuel + 1, acc, i =>
    if i < q.length then
      match eatWs (q.drop i) i with
      | none => .crash
      | some j =>
        match lexString q j with
        | .err next => if next < q.length then .error next else .crash
        | .ok key nk =>
          if hk : nk < q.length then
            if q[nk] ≠ ':' then .error nk
            else
              let i2 := nk + 1
              if h2 : i2 < q.length then
                let oi : String × Nat :=
                  if q[i2] = '>' || q[i2] = '<' then (String.mk [q[i2]], i2 + 1) else ("=", i2)
                match lexString q oi.2 with
                | .err next => if next < q.length then .error next else .crash
                | .ok value nv => parseLoop q fuel (acc ++ [⟨goSplitDot key, value, oi.1⟩]) nv
              else .crash
          else .crash
    else .ok ⟨acc⟩

/-- `parseQuery(q)`: empty input is the empty query; otherwise run the loop
from index 0. -/
def parseQueryGo (q : String) : ParseOutcome :=
  if q = "" then .ok ⟨[]⟩ else parseLoop q.data (q.length + 1) [] 0


/-- `strings.Join(ids, ",")` at the character level. -/
def intercalateC : List (List Char) → List Char
  | [] => []
  | [x] => x
  | x :: xs => x ++ ',' :: intercalateC xs

/-- The per-key read-modify-write body of `Server.index`: an empty current
value is replaced by the ID alone; otherwise the ID is appended after a comma
unless it is already among the comma-separated entries. -/
def rmw (id cur : List Char) : List Char :=
  if cur = [] then id
  else if id ∈ splitC cur then cur else cur ++ ',' :: id

/-- The secondary-index store: index key to stored byte value.  `none` models
a key pebble reports as not found (`Server.index` and `Server.lookup` treat
it exactly like an empty value). -/
abbrev IndexDb := String → Option (List Char)

/-- The empty index store. -/
def emptyIdx : IndexDb := fun _ => none

/-- An index `Get`: pebble's `ErrNotFound` leaves a nil byte slice. -/
def idxRead (db : IndexDb) (pv : String) : List Char := (db pv).getD []

/-- An index `Set`. -/
def idxWrite (db : IndexDb) (pv : String) (v : List Char) : IndexDb :=
  fun k => if k = pv then some v else db k

/-- `Server.index(id, document)`: for each flattened `path=value` key, read
the current ID set, add the ID if absent, and write the result back. -/
def indexDoc (id : String) (doc : Doc) (db : IndexDb) : IndexDb :=
  (getPathValues doc "").foldl (fun db pv => idxWrite db pv (rmw id.data (idxRead db pv))) db

/-- A sequence of sequential `Index` calls. -/
def indexCallsRun (calls : List (String × Doc)) (db : IndexDb) : IndexDb :=
  calls.foldl (fun db c => indexDoc c.1 c.2 db) db

/-- `Server.reIndex()`: iterate every (ID, document) of the primary store in
forward order and invoke `Server.index` on each. -/
def reIndexRun (primary : List (String × Doc)) (db : IndexDb) : IndexDb :=
  indexCallsRun primary db

/-- `Server.lookup(pathValue)`: an absent or empty stored value is the empty
ID list; otherwise split the stored value on commas. -/
def lookupIds (db : IndexDb) (pv : String) : List String :=
  let ids := idxRead db pv
  if ids = [] then [] else (splitC ids).map (fun l => String.mk l)

/-- The primary document store, in forward scan order (documents appear here
already decoded; serialization is an external given). -/
abbrev DocStore := List (String × Doc)

/-- `Server.getDocumentById` against the primary store. -/
def docStoreGet : DocStore → String → Option Doc
  | [], _ => none
  | (k, d) :: rest, id => if k = id then some d else docStoreGet rest id

/-- The full server state: primary store and secondary index. -/
structure ServerState where
  db : DocStore
  indexDb : IndexDb

/-- `Server.addDocument` after decoding, with the fresh ID as a parameter:
the index update runs first, then the document write, whose success is
modelled by `writeOk`; the returned flag is whether the write succeeded. -/
def addDocumentRun (id : String) (doc : Doc) (writeOk : Bool) (s : ServerState) :
    ServerState × Bool :=
  let s1 : ServerState := { s with indexDb := indexDoc id doc s.indexDb }
  if writeOk then ({ s1 with db := s1.db ++ [(id, doc)] }, true) else (s1, false)

/-- The index key `Server.searchDocument` builds for an equality comparison:
`fmt.Sprintf("%s=%v", strings.Join(key, "."), value)` (the value is the
literal string, rendered verbatim by `%v`). -/
def searchKeyOf (a : QueryComparison) : String :=
  String.intercalate "." a.key ++ "=" ++ a.value

/-- One step of the candidate tally: Go's `idsArgumentCount[id]++` on a map
embedded as an association list in insertion order. -/
def bump : List (String × Nat) → String → List (String × Nat)
  | [], id => [(id, 1)]
  | (k, n) :: rest, id => if k = id then (k, n + 1) :: rest else (k, n) :: bump rest id

/-- The tally loop of `Server.searchDocument`: for each equality comparison,
look its key up in the index and count each returned ID once. -/
def tallyFold (db : IndexDb) (ands : List QueryComparison) : List (String × Nat) :=
  ands.foldl (fun m a => if a.op = "=" then (lookupIds db (searchKeyOf a)).foldl bump m else m) []

/-- `idsInAll` of `Server.searchDocument`: the IDs whose tally equals the
number of equality comparisons. -/
def idsInAllFn (db : IndexDb) (q : Query) : List String :=
  let n := (q.ands.filter (fun a => a.op == "=")).length
  ((tallyFold db q.ands).filter (fun p => p.2 == n)).map Prod.fst

/-- What `Server.searchDocument` does and returns: the candidate list (after
the `skipIndex` override), the response body, and — in the fallback branch —
the (ID, document, match result) triples evaluated during the full scan.
Because the fallback branch appends to a shadowing local `documents`
variable, its matches never reach the response, which stays empty. -/
structure SearchOutcome where
  candidates : List String
  response : Except Unit (List (String × Doc))
  scanned : List (String × Doc × Bool)

/-- The candidate-loading loop of the index branch: load each candidate
document (a missing one aborts the whole request with an error) and include
it unconditionally unless ordering comparisons are present, in which case
the full match must succeed. -/
def loadCandidates (primary : DocStore) (q : Query) (isRangeScan : Bool)
    (ids : List String) : Except Unit (List (String × Doc)) :=
  ids.foldl
    (fun acc id =>
      match acc with
      | .error e => .error e
      | .ok ds =>
        match docStoreGet primary id with
        | none => .error ()
        | some doc => if !isRangeScan || q.matchDoc doc then .ok (ds ++ [(id, doc)]) else .ok ds)
    (.ok [])

/-- `Server.searchDocument` for an already parsed query. -/
def searchRun (db : IndexDb) (primary : DocStore) (q : Query) (skipIndex : Bool) :
    SearchOutcome :=
  let isRangeScan := q.ands.any (fun a => a.op ≠ "=")
  let inAll := idsInAllFn db q
  let inAll' := if skipIndex then [] else inAll
  if inAll'.length > 0 then
    { candidates := inAll'
      response := loadCandidates primary q isRangeScan inAll'
      scanned := [] }
  else
    { candidates := inAll'
      response := .ok []
      scanned := primary.map (fun c => (c.1, c.2, q.matchDoc c.2)) }

/-! Specification-side definitions, written from the spec's words, to be
compared with the source embeddings above. -/

/-- First-seen-order deduplication (`seen` accumulates emitted elements). -/
def dedupNotIn : List String → List String → List String
  | [], _ => []
  | a :: t, seen => if a ∈ seen then dedupNotIn t seen else a :: dedupNotIn t (seen ++ [a])

/-- First-seen-order deduplication of a list. -/
def dedupFS (l : List String) : List String := dedupNotIn l []

/-- The tally recorded for an ID (0 when absent), reading the tally map as
an association list. -/
def valOf : List (String × Nat) → String → Nat
  | [], _ => 0
  | (k, n) :: rest, key => if k = key then n else valOf rest key

/-- The spec's AND-intersection: the IDs whose tally of appearances under
equality comparisons equals the number of equality comparisons. -/
def specCandidates (db : IndexDb) (q : Query) : List String :=
  let eqs := q.ands.filter (fun a => a.op == "=")
  let ids := eqs.flatMap (fun a => lookupIds db (searchKeyOf a))
  (dedupFS ids).filter (fun id => ids.count id == eqs.length)

/-- Remove every array-valued field from a document, at every depth. -/
def stripArrays : List (String × DocValue) → List (String × DocValue)
  | [] => []
  | (k, v) :: rest =>
    match v with
    | .arr _ => stripArrays rest
    | .obj t => (k, .obj (stripArrays t)) :: stripArrays rest
    | v => (k, v) :: stripArrays rest

/-- The number of scalar leaves reachable without crossing an array. -/
def scalarLeafCount : List (String × DocValue) → Nat
  | [] => 0
  | (_, v) :: rest =>
    (match v with
     | .obj t => scalarLeafCount t
     | .arr _ => 0
     | _ => 1) + scalarLeafCount rest

/-- Append an ID if absent (the set semantics of one index entry update). -/
def addId (ids : List String) (id : String) : List String :=
  if id ∈ ids then ids else ids ++ [id]

/-- The distinct IDs indexed under a key by a sequence of `Index` calls, in
first-indexed order. -/
def relIds (calls : List (String × Doc)) (key : String) : List String :=
  dedupFS ((calls.filter (fun c => key ∈ getPathValues c.2 "")).map Prod.fst)

/-- The stored encoding of an index entry's ID list: never-written keys are
absent, otherwise the comma-separated concatenation. -/
def encodeIds (ids : List String) : Option (List Char) :=
  match ids with
  | [] => none
  | _ => some (intercalateC (ids.map String.data))

/-- The two pebble operations of one `Server.index` entry update, for the
interleaving model of concurrent `Index` calls on a shared key: call 0 or
call 1 performs its read (into its private buffer) or its write (of the
read-modify-write result computed from that buffer). -/
inductive RMWAct where
  | read0
  | read1
  | write0
  | write1
deriving Repr, DecidableEq

/-- The shared entry value plus each call's private read buffer. -/
structure RaceState where
  store : Option (List Char)
  buf0 : Option (List Char)
  buf1 : Option (List Char)

/-- One atomic pebble operation of either concurrent `Index` call; the
read-modify-write logic is exactly `rmw` from `Server.index`. -/
def rmwStep (id0 id1 : List Char) (s : RaceState) : RMWAct → RaceState
  | .read0 => { s with buf0 := some (s.store.getD []) }
  | .read1 => { s with buf1 := some (s.store.getD []) }
  | .write0 => { s with store := some (rmw id0 (s.buf0.getD [])) }
  | .write1 => { s with store := some (rmw id1 (s.buf1.getD [])) }

/-- Run an interleaving of the two calls' operations. -/
def runRace (id0 id1 : List Char) (sched : List RMWAct) (s : RaceState) : RaceState :=
  sched.foldl (rmwStep id0 id1) s

/-! Claim theorems. -/

/-- C1: the claim says every scalar leaf is indexed under its full
root-to-leaf dotted path, the flattener extending the accumulated prefix at
every depth.  It is refuted by `{"a":{"b":{"c":1}}}`: the recursion passes
only the immediate field key as the new prefix, so the leaf is flattened as
`b.c=1`, and after indexing, a lookup of the full-path key `a.b.c=1` is
empty while `b.c=1` holds the ID. -/
theorem c1_flattener_drops_nested_prefix :
    getPathValues [("a", .obj [("b", .obj [("c", .num 1)])])] "" = ["b.c=1"] ∧
    lookupIds (indexDoc "id1" [("a", .obj [("b", .obj [("c", .num 1)])])] emptyIdx) "a.b.c=1"
      = [] ∧
    lookupIds (indexDoc "id1" [("a", .obj [("b", .obj [("c", .num 1)])])] emptyIdx) "b.c=1"
      = ["id1"] :=
  ⟨by decide, by decide, by decide⟩

/-- C2: the claim says an equality comparison succeeds iff the resolved
value's default stringified form equals the literal byte-for-byte, so a
document with field `name` equal to `"john doe"` satisfies
`(["name"], Eq, "john doe")`.  It is refuted: the source compares
`fmt.Sprint("%v", value)`, which prepends the literal text `%v` instead of
formatting, so the comparison is `"%vjohn doe" == "john doe"` and fails. -/
theorem c2_equality_match_prepends_percent_v :
    goSprintVBug (.str "john doe") = "%vjohn doe" ∧
    Query.matchDoc ⟨[⟨["name"], "john doe", "="⟩]⟩ [("name", .str "john doe")] = false :=
  ⟨by decide, by decide⟩

/-- C3: the claim says `parseQuery` never crashes the caller and that the
malformed query `a.b12` yields a `ParseError` at the position past the key
token.  It is refuted: after lexing the key `a.b12` the parser evaluates
`q[nextIdx]` with `nextIdx` equal to the input length, an out-of-range
index that panics.  (The well-formed query of the spec's example parses
fine, confirming the embedding.) -/
theorem c3_parse_crashes_past_key_token :
    parseQueryGo "a.b12" = .crash ∧
    parseQueryGo "a.b:12 name:\"john doe\" age:>18"
      = .ok ⟨[⟨["a", "b"], "12", "="⟩, ⟨["name"], "john doe", "="⟩, ⟨["age"], "18", ">"⟩]⟩ :=
  ⟨by decide, by decide⟩

/-- C4: the claim says an ordering comparison whose literal does not parse
as a float always fails.  It is refuted: `Server.index`'s matcher never
checks the error of `strconv.ParseFloat(argument.value, 64)`, so the right
operand silently becomes 0 and `age > abc` succeeds on `{"age": 10}`. -/
theorem c4_unparsable_ordering_literal_succeeds :
    parseFloatQ "abc" = none ∧
    Query.matchDoc ⟨[⟨["age"], "abc", ">"⟩]⟩ [("age", .num 10)] = true :=
  ⟨by decide, by decide⟩

/-- C5: the claim says the index update is attempted only after the primary
write is durably acknowledged, so no reachable state has an ID indexed but
not stored.  It is refuted: `addDocument` calls `s.index` before `s.db.Set`,
so when the primary write fails the final state still carries the ID in the
index entry while the primary store is empty. -/
theorem c5_index_updated_before_primary_write :
    (addDocumentRun "id1" [("a", .num 1)] false ⟨[], emptyIdx⟩).2 = false ∧
    lookupIds (addDocumentRun "id1" [("a", .num 1)] false ⟨[], emptyIdx⟩).1.indexDb "a=1"
      = ["id1"] ∧
    (addDocumentRun "id1" [("a", .num 1)] false ⟨[], emptyIdx⟩).1.db.isEmpty = true :=
  ⟨by decide, by decide, by decide⟩

/-- C9: the claim says N concurrent `Index` calls on one key (distinct IDs)
always end with an ID set of size N.  It is refuted with N = 2: the
read-modify-write is unsynchronized, so under the interleaving
read-read-write-write both calls read the empty entry and the second write
overwrites the first — the final set is just `{"b"}`, size 1. -/
theorem c9_concurrent_index_loses_update :
    (runRace "a".data "b".data [.read0, .read1, .write0, .write1]
        ⟨none, none, none⟩).store = some "b".data ∧
    (splitC "b".data).length = 1 :=
  ⟨by decide, by decide⟩

/-- C8 (counterexample): as stated, over arbitrary primary-store contents,
`ReIndex` is not idempotent: with documents under IDs `""` and `"x"` sharing
the pair `a=1`, the first pass stores `"x"` (the empty ID is written as the
empty value and then overwritten), and the second pass, not finding `""`
among `["x"]`, appends a comma — the entry changes from `"x"` to `"x,"`. -/
theorem c8_counterexample_empty_id :
    reIndexRun [("", [("a", .num 1)]), ("x", [("a", .num 1)])]
        (reIndexRun [("", [("a", .num 1)]), ("x", [("a", .num 1)])] emptyIdx) "a=1"
      = some "x,".data ∧
    reIndexRun [("", [("a", .num 1)]), ("x", [("a", .num 1)])] emptyIdx "a=1"
      = some "x".data ∧
    some "x,".data ≠ some "x".data :=
  ⟨by decide, by decide, by decide⟩

/-- C10 (counterexample): as stated, an `Index` call whose ID is the empty
string (which contains no comma) is not recovered by `lookup`: indexing
`{"a":1}` under ID `""` stores an empty value, which `lookup` decodes as the
empty ID set rather than `[""]`. -/
theorem c10_counterexample_empty_id :
    getPathValues [("a", .num 1)] "" = ["a=1"] ∧
    lookupIds (indexDoc "" [("a", .num 1)] emptyIdx) "a=1" = [] ∧
    lookupIds (indexDoc "" [("a", .num 1)] emptyIdx) "a=1" ≠ [""] :=
  ⟨by decide, by decide, by decide⟩

/-- Removing every array-valued field from a document does not change the
flattener's output: arrays contribute nothing, at any depth. -/
theorem gpv_stripArrays : (l : List (String × DocValue)) → (p : String) →
    getPathValues (stripArrays l) p = getPathValues l p
  | [], _ => by simp only [stripArrays]
  | (k, v) :: rest, p => by
    cases v with
    | obj t =>
      simp only [stripArrays, getPathValues, gpvEntry,
        gpv_stripArrays t k, gpv_stripArrays rest p]
    | arr a =>
      simp only [stripArrays, getPathValues, gpvEntry, gpv_stripArrays rest p,
        List.nil_append]
    | str s => simp only [stripArrays, getPathValues, gpvEntry, gpv_stripArrays rest p]
    | num n => simp only [stripArrays, getPathValues, gpvEntry, gpv_stripArrays rest p]
    | bool b => simp only [stripArrays, getPathValues, gpvEntry, gpv_stripArrays rest p]
    | null => simp only [stripArrays, getPathValues, gpvEntry, gpv_stripArrays rest p]

/-- The flattener emits exactly one pair per scalar leaf reachable without
crossing an array. -/
theorem gpv_length : (l : List (String × DocValue)) → (p : String) →
    (getPathValues l p).length = scalarLeafCount l
  | [], _ => by simp only [getPathValues, scalarLeafCount, List.length_nil]
  | (k, v) :: rest, p => by
    cases v with
    | obj t =>
      simp only [getPathValues, gpvEntry, scalarLeafCount, List.length_append,
        gpv_length t k, gpv_length rest p]
    | arr a =>
      simp only [getPathValues, gpvEntry, scalarLeafCount, List.length_append,
        gpv_length rest p, List.length_nil]
    | str s =>
      simp only [getPathValues, gpvEntry, scalarLeafCount, List.length_append,
        gpv_length rest p, List.length_singleton]
    | num n =>
      simp only [getPathValues, gpvEntry, scalarLeafCount, List.length_append,
        gpv_length rest p, List.length_singleton]
    | bool b =>
      simp only [getPathValues, gpvEntry, scalarLeafCount, List.length_append,
        gpv_length rest p, List.length_singleton]
    | null =>
      simp only [getPathValues, gpvEntry, scalarLeafCount, List.length_append,
        gpv_length rest p, List.length_singleton]

/-- C7: array-valued fields are skipped entirely by the flattener — deleting
them all (`stripArrays`) leaves the output unchanged, so nothing under an
array ever reaches an index key — while every scalar leaf reachable without
crossing an array still contributes exactly one flattened pair. -/
theorem c7_arrays_never_flattened : ∀ (l : List (String × DocValue)) (p : String),
    getPathValues (stripArrays l) p = getPathValues l p ∧
    (getPathValues l p).length = scalarLeafCount l :=
  fun l p => ⟨gpv_stripArrays l p, gpv_length l p⟩

/-- Keys of the tally map after one bump: unchanged if the ID is present,
otherwise the ID is appended. -/
theorem bump_keys (m : List (String × Nat)) (id : String) :
    (bump m id).map Prod.fst =
      if id ∈ m.map Prod.fst then m.map Prod.fst else m.map Prod.fst ++ [id] := by
  induction m with
  | nil => simp [bump]
  | cons p rest ih =>
    obtain ⟨k, v⟩ := p
    by_cases h : k = id
    · subst h; simp [bump]
    · have h' : id ≠ k := Ne.symm h
      simp only [bump, if_neg h, List.map_cons, ih, List.mem_cons, h', false_or]
      by_cases h2 : id ∈ rest.map Prod.fst
      · simp [h2]
      · simp [h2]

/-- One bump increments exactly the bumped ID's tally. -/
theorem bump_val (m : List (String × Nat)) (id k : String) :
    valOf (bump m id) k = valOf m k + (if k = id then 1 else 0) := by
  induction m with
  | nil =>
    by_cases h : k = id
    · subst h; simp [bump, valOf]
    · simp [bump, valOf, h, Ne.symm h]
  | cons p rest ih =>
    obtain ⟨j, v⟩ := p
    by_cases hj : j = id
    · subst hj
      simp only [bump, if_pos rfl, valOf]
      by_cases hk : j = k
      · subst hk; simp
      · simp [hk, Ne.symm hk]
    · simp only [bump, if_neg hj, valOf]
      by_cases hk : j = k
      · subst hk; simp [hj, Ne.symm hj]
      · simp [hk, ih]

/-- Keys of a fold of bumps: the starting keys followed by the first-seen
deduplication of the new IDs. -/
theorem foldBump_keys : ∀ (L : List String) (m : List (String × Nat)),
    (L.foldl bump m).map Prod.fst = m.map Prod.fst ++ dedupNotIn L (m.map Prod.fst)
  | [], m => by simp [dedupNotIn]
  | a :: L, m => by
    rw [List.foldl_cons, foldBump_keys L (bump m a), bump_keys]
    by_cases h : a ∈ m.map Prod.fst
    · simp [dedupNotIn, h]
    · simp [dedupNotIn, h]

/-- Tally of a fold of bumps: the starting tally plus the occurrence count. -/
theorem foldBump_val : ∀ (L : List String) (m : List (String × Nat)) (k : String),
    valOf (L.foldl bump m) k = valOf m k + L.count k
  | [], m, k => by simp
  | a :: L, m, k => by
    rw [List.foldl_cons, foldBump_val L (bump m a) k, bump_val, List.count_cons]
    by_cases h : k = a
    · subst h; simp; omega
    · simp [h, Ne.symm h]

/-- First-seen deduplication never emits an already-seen element. -/
theorem dedupNotIn_not_seen : ∀ (L seen : List String) (x : String),
    x ∈ dedupNotIn L seen → x ∉ seen
  | [], _, x, hx => by simp [dedupNotIn] at hx
  | a :: L, seen, x, hx => by
    by_cases h : a ∈ seen
    · exact dedupNotIn_not_seen L seen x (by simpa [dedupNotIn, h] using hx)
    · simp only [dedupNotIn, if_neg h, List.mem_cons] at hx
      rcases hx with rfl | hx
      · exact h
      · have := dedupNotIn_not_seen L (seen ++ [a]) x hx
        simp only [List.mem_append, not_or] at this
        exact this.1

/-- First-seen deduplication has no duplicates. -/
theorem dedupNotIn_nodup : ∀ (L seen : List String), (dedupNotIn L seen).Nodup
  | [], _ => by simp [dedupNotIn]
  | a :: L, seen => by
    by_cases h : a ∈ seen
    · simpa [dedupNotIn, h] using dedupNotIn_nodup L seen
    · rw [show dedupNotIn (a :: L) seen = a :: dedupNotIn L (seen ++ [a]) from by
        simp [dedupNotIn, h]]
      refine List.nodup_cons.mpr ⟨?_, dedupNotIn_nodup L (seen ++ [a])⟩
      intro hmem
      have := dedupNotIn_not_seen L (seen ++ [a]) a hmem
      simp at this

/-- Filtering tally entries by value and projecting keys equals filtering
the key list by recorded tally, when keys are distinct. -/
theorem filter_map_canon : ∀ (m : List (String × Nat)) (n : Nat), (m.map Prod.fst).Nodup →
    (m.filter (fun p => p.2 == n)).map Prod.fst
      = (m.map Prod.fst).filter (fun k => valOf m k == n)
  | [], _, _ => rfl
  | (k, v) :: rest, n, h => by
    have hk : k ∉ rest.map Prod.fst := (List.nodup_cons.mp h).1
    have ih := filter_map_canon rest n (List.nodup_cons.mp h).2
    have hcong : List.filter (fun x => (if k = x then v else valOf rest x) == n)
          (rest.map Prod.fst)
        = List.filter (fun x => valOf rest x == n) (rest.map Prod.fst) := by
      refine List.filter_congr ?_
      intro x hx
      have hne : ¬ k = x := fun hh => hk (hh ▸ hx)
      simp [hne]
    by_cases hv : v = n
    · subst hv
      simp only [List.map_cons, List.filter_cons, valOf]
      simp [hcong, ih]
    · simp only [List.map_cons, List.filter_cons, valOf]
      simp [hv, hcong, ih]

/-- The tally loop equals a single fold of bumps over the concatenation of
all equality lookups (in query order). -/
theorem tallyFold_flat : ∀ (ands : List QueryComparison) (db : IndexDb)
    (m : List (String × Nat)),
    ands.foldl (fun m a => if a.op = "=" then (lookupIds db (searchKeyOf a)).foldl bump m else m) m
      = ((ands.filter (fun a => a.op == "=")).flatMap
          (fun a => lookupIds db (searchKeyOf a))).foldl bump m
  | [], _, _ => rfl
  | a :: ands, db, m => by
    by_cases h : a.op = "="
    · simp only [List.foldl_cons, if_pos h, List.filter_cons, h, beq_self_eq_true, if_pos,
        List.flatMap_cons, List.foldl_append]
      exact tallyFold_flat ands db _
    · have hb : (a.op == "=") = false := by simpa using h
      simp only [List.foldl_cons, if_neg h, List.filter_cons, hb, Bool.false_eq_true,
        if_neg, ite_false]
      exact tallyFold_flat ands db m

/-- `tallyFold` as one fold of bumps. -/
theorem tallyFold_eq (db : IndexDb) (ands : List QueryComparison) :
    tallyFold db ands
      = ((ands.filter (fun a => a.op == "=")).flatMap
          (fun a => lookupIds db (searchKeyOf a))).foldl bump [] :=
  tallyFold_flat ands db []

/-- Projecting the IDs whose tally equals `n` out of a bump fold gives the
first-seen deduplication filtered by occurrence count. -/
theorem foldBump_filter (L : List String) (n : Nat) :
    ((L.foldl bump []).filter (fun p => p.2 == n)).map Prod.fst
      = (dedupNotIn L []).filter (fun id => L.count id == n) := by
  have hkeys : ((L.foldl bump []).map Prod.fst) = dedupNotIn L [] := by
    simpa using foldBump_keys L []
  have hnodup : ((L.foldl bump []).map Prod.fst).Nodup := by
    rw [hkeys]; exact dedupNotIn_nodup L []
  rw [filter_map_canon _ _ hnodup, hkeys]
  refine List.filter_congr ?_
  intro x hx
  rw [foldBump_val]
  simp [valOf]

/-- C6: the search coordinator's index-candidate set is exactly the spec's
AND-intersection — the IDs whose tally of appearances under equality-lookup
results equals the number of equality comparisons — and whenever that set is
empty after the `skipIndex` override (which covers the empty intersection,
the zero-equality-comparison query, and the explicit bypass), the
coordinator performs a full forward scan of the primary store, testing every
document against the full original comparison list. -/
theorem c6_index_candidates_and_full_scan_fallback :
    ∀ (db : IndexDb) (primary : DocStore) (q : Query) (skip : Bool),
      idsInAllFn db q = specCandidates db q ∧
      ((if skip then [] else idsInAllFn db q) = [] →
        (searchRun db primary q skip).scanned
          = primary.map (fun c => (c.1, c.2, q.matchDoc c.2))) := by
  intro db primary q skip
  constructor
  · simp only [idsInAllFn, specCandidates, dedupFS]
    rw [tallyFold_eq, foldBump_filter]
  · intro h
    simp [searchRun, h]

/-- Strings with equal character data are equal. -/
theorem string_data_inj {a b : String} (h : a.data = b.data) : a = b := by
  cases a; cases b; exact congrArg String.mk h

/-- A nonempty string has nonempty character data. -/
theorem string_ne_data {s : String} (h : s ≠ "") : s.data ≠ [] := by
  intro hd
  exact h (show s = "" from by cases s; exact congrArg String.mk hd)

/-- `splitOnC` never returns the empty list. -/
theorem splitOnC_ne_nil (sep : Char) : ∀ (l : List Char), splitOnC sep l ≠ []
  | [] => by simp [splitOnC]
  | c :: rest => by
    by_cases h : c = sep
    · simp [splitOnC, h]
    · simp only [splitOnC, if_neg h]
      cases hr : splitOnC sep rest with
      | nil => simp
      | cons t ts => simp

/-- Splitting a comma-free chunk returns just that chunk. -/
theorem splitC_no_comma : ∀ (l : List Char), ',' ∉ l → splitC l = [l]
  | [], _ => rfl
  | c :: rest, h => by
    have hc : ¬ c = ',' := by
      intro hh; exact h (hh ▸ List.mem_cons_self c rest)
    have hr : splitC rest = [rest] :=
      splitC_no_comma rest (fun hm => h (List.mem_cons_of_mem c hm))
    simp only [splitC, splitOnC, if_neg hc] at *
    rw [hr]

/-- Splitting at a separator boundary splits the two sides independently. -/
theorem splitOnC_append (sep : Char) : ∀ (a b : List Char),
    splitOnC sep (a ++ sep :: b) = splitOnC sep a ++ splitOnC sep b
  | [], b => by simp [splitOnC]
  | c :: a, b => by
    have ih := splitOnC_append sep a b
    by_cases h : c = sep
    · subst h
      simp only [List.cons_append, splitOnC, if_pos, List.append_eq, ih, List.cons_append]
    · simp only [List.cons_append, splitOnC, if_neg h, List.append_eq, ih]
      cases ha : splitOnC sep a with
      | nil => exact absurd ha (splitOnC_ne_nil sep a)
      | cons t ts => simp [ha]

/-- Splitting a stored value at a comma boundary. -/
theorem splitC_append (a b : List Char) : splitC (a ++ ',' :: b) = splitC a ++ splitC b :=
  splitOnC_append ',' a b

/-- Joining a chunk in front of a nonempty tail. -/
theorem intercalateC_cons (x : List Char) (ids : List (List Char)) (h : ids ≠ []) :
    intercalateC (x :: ids) = x ++ ',' :: intercalateC ids := by
  cases ids with
  | nil => exact absurd rfl h
  | cons y ys => rfl

/-- Splitting a comma-joined list of comma-free chunks recovers the chunks. -/
theorem splitC_intercalateC : ∀ (ids : List (List Char)),
    (∀ x ∈ ids, ',' ∉ x) → ids ≠ [] → splitC (intercalateC ids) = ids
  | [], _, h => absurd rfl h
  | [x], h, _ => by
    simpa [intercalateC] using splitC_no_comma x (h x (by simp))
  | x :: y :: ys, h, _ => by
    rw [intercalateC_cons x (y :: ys) (by simp), splitC_append,
      splitC_no_comma x (h x (by simp)),
      splitC_intercalateC (y :: ys) (fun z hz => h z (List.mem_cons_of_mem x hz)) (by simp)]
    rfl

/-- A comma-join of nonempty chunks is nonempty. -/
theorem intercalateC_ne_nil : ∀ (ids : List (List Char)),
    (∀ x ∈ ids, x ≠ []) → ids ≠ [] → intercalateC ids ≠ []
  | [], _, h => absurd rfl h
  | [x], h, _ => by simpa [intercalateC] using h x (by simp)
  | x :: y :: ys, h, _ => by
    rw [intercalateC_cons x (y :: ys) (by simp)]
    simp

/-- Joining after appending one chunk at the end. -/
theorem intercalateC_snoc : ∀ (ids : List (List Char)) (x : List Char), ids ≠ [] →
    intercalateC (ids ++ [x]) = intercalateC ids ++ ',' :: x
  | [], _, h => absurd rfl h
  | [y], x, _ => by simp [intercalateC]
  | y :: z :: ys, x, _ => by
    rw [List.cons_append, intercalateC_cons y ((z :: ys) ++ [x]) (by simp),
      intercalateC_cons y (z :: ys) (by simp),
      intercalateC_snoc (z :: ys) x (by simp)]
    simp

/-- After the read-modify-write, a comma-free ID is among the entries. -/
theorem rmw_mem_self (id cur : List Char) (h : ',' ∉ id) : id ∈ splitC (rmw id cur) := by
  unfold rmw
  by_cases hc : cur = []
  · simp [hc, splitC_no_comma id h]
  · by_cases hm : id ∈ splitC cur
    · simp [hc, hm]
    · simp [hc, hm, splitC_append, splitC_no_comma id h]

/-- A nonempty member of the split is only found in a nonempty value. -/
theorem mem_splitC_ne_nil {id cur : List Char} (hne : id ≠ []) (hm : id ∈ splitC cur) :
    cur ≠ [] := by
  intro hc
  subst hc
  simp [splitC, splitOnC] at hm
  exact hne hm

/-- The read-modify-write of any other ID preserves membership of a nonempty
ID among the entries. -/
theorem rmw_mem_mono (id idy cur : List Char) (hne : id ≠ []) (hm : id ∈ splitC cur) :
    id ∈ splitC (rmw idy cur) := by
  unfold rmw
  have hc : cur ≠ [] := mem_splitC_ne_nil hne hm
  by_cases hmy : idy ∈ splitC cur
  · simpa [hc, hmy] using hm
  · simp only [if_neg hc, if_neg hmy, splitC_append, List.mem_append]
    exact Or.inl hm

/-- The read-modify-write of an already-present ID does not change the value. -/
theorem rmw_noop (id cur : List Char) (hm : id ∈ splitC cur) : rmw id cur = cur := by
  unfold rmw
  by_cases hc : cur = []
  · subst hc
    simp only [if_pos rfl]
    simpa [splitC, splitOnC] using hm
  · simp [hc, hm]

/-- Later entry updates (by any IDs) preserve membership of a nonempty ID in
a key's entry. -/
theorem foldIdx_mono (id : List Char) (hne : id ≠ []) (idy : List Char) :
    ∀ (pvs : List String) (db : IndexDb) (pv : String),
      id ∈ splitC (idxRead db pv) →
      id ∈ splitC (idxRead
        (pvs.foldl (fun db p => idxWrite db p (rmw idy (idxRead db p))) db) pv)
  | [], _, _, h => h
  | p :: pvs, db, pv, h => by
    rw [List.foldl_cons]
    refine foldIdx_mono id hne idy pvs _ pv ?_
    by_cases hp : pv = p
    · subst hp
      simpa [idxRead, idxWrite] using rmw_mem_mono id idy _ hne h
    · simpa [idxRead, idxWrite, hp] using h

/-- During one `Server.index` call, every processed `path=value` key's entry
contains the (comma-free) calling ID. -/
theorem foldIdx_mem (id : List Char) (hid : ',' ∉ id) (hne : id ≠ []) :
    ∀ (pvs : List String) (db : IndexDb) (pv : String), pv ∈ pvs →
      id ∈ splitC (idxRead
        (pvs.foldl (fun db pv => idxWrite db pv (rmw id (idxRead db pv))) db) pv)
  | [], _, _, h => absurd h (by simp)
  | p :: pvs, db, pv, h => by
    rw [List.foldl_cons]
    by_cases hp : pv ∈ pvs
    · exact foldIdx_mem id hid hne pvs _ pv hp
    · have hpv : pv = p := by
        rcases List.mem_cons.mp h with h1 | h2
        · exact h1
        · exact absurd h2 hp
      subst hpv
      refine foldIdx_mono id hne id pvs _ pv ?_
      simp [idxRead, idxWrite, rmw_mem_self id _ hid]

/-- An `Server.index` call whose ID already sits in every one of its keys'
entries leaves the index store unchanged. -/
theorem foldIdx_noop (id : List Char) (hne : id ≠ []) :
    ∀ (pvs : List String) (db : IndexDb),
      (∀ pv ∈ pvs, id ∈ splitC (idxRead db pv)) →
      pvs.foldl (fun db p => idxWrite db p (rmw id (idxRead db p))) db = db
  | [], _, _ => rfl
  | p :: pvs, db, h => by
    have hm : id ∈ splitC (idxRead db p) := h p (by simp)
    have hwr : idxWrite db p (rmw id (idxRead db p)) = db := by
      funext k
      by_cases hk : k = p
      · subst hk
        rw [show idxWrite db k (rmw id (idxRead db k)) k = some (rmw id (idxRead db k)) from by
          simp [idxWrite]]
        rw [rmw_noop id _ hm]
        have hcur : idxRead db k ≠ [] := mem_splitC_ne_nil hne hm
        cases hdb : db k with
        | none => exact absurd (by simp [idxRead, hdb]) hcur
        | some v => simp [idxRead, hdb]
      · simp [idxWrite, hk]
    rw [List.foldl_cons, hwr]
    exact foldIdx_noop id hne pvs db (fun pv hpv => h pv (List.mem_cons_of_mem p hpv))

/-- Later `Server.index` calls preserve membership of a nonempty ID in any
key's entry. -/
theorem callsRun_mono (id : List Char) (hne : id ≠ []) :
    ∀ (calls : List (String × Doc)) (db : IndexDb) (pv : String),
      id ∈ splitC (idxRead db pv) →
      id ∈ splitC (idxRead (indexCallsRun calls db) pv)
  | [], _, _, h => h
  | c :: calls, db, pv, h => by
    rw [show indexCallsRun (c :: calls) db = indexCallsRun calls (indexDoc c.1 c.2 db) from rfl]
    refine callsRun_mono id hne calls _ pv ?_
    exact foldIdx_mono id hne c.1.data (getPathValues c.2 "") db pv h

/-- After a run of `Server.index` calls with well-formed IDs, every call's ID
is in the entry of every one of its document's `path=value` keys. -/
theorem callsRun_mem :
    ∀ (calls : List (String × Doc)) (db : IndexDb),
      (∀ c ∈ calls, ',' ∉ c.1.data ∧ c.1.data ≠ []) →
      ∀ c ∈ calls, ∀ pv ∈ getPathValues c.2 "",
        c.1.data ∈ splitC (idxRead (indexCallsRun calls db) pv)
  | [], _, _, c, hc => absurd hc (by simp)
  | c0 :: calls, db, h, c, hc => by
    intro pv hpv
    rw [show indexCallsRun (c0 :: calls) db = indexCallsRun calls (indexDoc c0.1 c0.2 db) from rfl]
    rcases List.mem_cons.mp hc with rfl | hmem
    · have hw := h c (by simp)
      refine callsRun_mono c.1.data hw.2 calls _ pv ?_
      exact foldIdx_mem c.1.data hw.1 hw.2 (getPathValues c.2 "") db pv hpv
    · exact callsRun_mem calls _ (fun d hd => h d (List.mem_cons_of_mem c0 hd)) c hmem pv hpv

/-- A run of `Server.index` calls whose IDs are nonempty and already present
in all their keys' entries changes nothing. -/
theorem callsRun_noop :
    ∀ (calls : List (String × Doc)) (db : IndexDb),
      (∀ c ∈ calls, c.1.data ≠ [] ∧
        ∀ pv ∈ getPathValues c.2 "", c.1.data ∈ splitC (idxRead db pv)) →
      indexCallsRun calls db = db
  | [], _, _ => rfl
  | c0 :: calls, db, h => by
    have h0 := h c0 (by simp)
    have hdoc : indexDoc c0.1 c0.2 db = db :=
      foldIdx_noop c0.1.data h0.1 (getPathValues c0.2 "") db h0.2
    rw [show indexCallsRun (c0 :: calls) db
        = indexCallsRun calls (indexDoc c0.1 c0.2 db) from rfl, hdoc]
    exact callsRun_noop calls db (fun d hd => h d (List.mem_cons_of_mem c0 hd))

/-- C8 (amended): for primary stores all of whose document IDs are nonempty
and contain no comma — true of every ID this program generates, which are
UUIDs — `ReIndex` is idempotent: a second pass over the same primary
contents, from whatever index state the first pass produced, changes no
index entry (in particular it adds no duplicate ID to any entry). -/
theorem c8_reindex_idempotent :
    ∀ (primary : List (String × Doc)) (db : IndexDb),
      (∀ c ∈ primary, c.1 ≠ "" ∧ ',' ∉ c.1.data) →
      reIndexRun primary (reIndexRun primary db) = reIndexRun primary db := by
  intro primary db h
  have hwf : ∀ c ∈ primary, ',' ∉ c.1.data ∧ c.1.data ≠ [] :=
    fun c hc => ⟨(h c hc).2, string_ne_data (h c hc).1⟩
  refine callsRun_noop primary _ ?_
  intro c hc
  exact ⟨(hwf c hc).2, fun pv hpv => callsRun_mem primary db hwf c hc pv hpv⟩

/-- Witness for C8: the idempotence theorem applied to a concrete one-document
store with the UUID-like ID "x". -/
theorem c8_reindex_idempotent_witness :
    (∀ c ∈ [("x", [("a", DocValue.num 1)])], (c.1 : String) ≠ "" ∧ ',' ∉ c.1.data) ∧
    reIndexRun [("x", [("a", DocValue.num 1)])]
        (reIndexRun [("x", [("a", DocValue.num 1)])] emptyIdx)
      = reIndexRun [("x", [("a", DocValue.num 1)])] emptyIdx :=
  ⟨by decide, c8_reindex_idempotent _ emptyIdx (by decide)⟩

/-- `addId` preserves well-formedness of the ID list. -/
theorem addId_wf (ids : List String) (id : String)
    (hids : ∀ x ∈ ids, ',' ∉ x.data ∧ x.data ≠ [])
    (hid : ',' ∉ id.data) (hne : id.data ≠ []) :
    ∀ x ∈ addId ids id, ',' ∉ x.data ∧ x.data ≠ [] := by
  intro x hx
  unfold addId at hx
  by_cases hm : id ∈ ids
  · rw [if_pos hm] at hx; exact hids x hx
  · rw [if_neg hm] at hx
    rcases List.mem_append.mp hx with h1 | h2
    · exact hids x h1
    · have : x = id := by simpa using h2
      subst this
      exact ⟨hid, hne⟩

/-- `addId` puts the ID in. -/
theorem addId_mem_self (ids : List String) (id : String) : id ∈ addId ids id := by
  unfold addId
  by_cases hm : id ∈ ids
  · rw [if_pos hm]; exact hm
  · simp [hm]

/-- `addId` is idempotent. -/
theorem addId_idem (ids : List String) (id : String) :
    addId (addId ids id) id = addId ids id := by
  rw [show addId (addId ids id) id = if id ∈ addId ids id then addId ids id
      else addId ids id ++ [id] from rfl]
  rw [if_pos (addId_mem_self ids id)]

/-- The stored value after one entry read-modify-write, in terms of the
encoded ID list. -/
theorem rmw_encode (id : String) (_hid : ',' ∉ id.data)
    (ids : List String) (hids : ∀ x ∈ ids, ',' ∉ x.data ∧ x.data ≠ []) :
    some (rmw id.data ((encodeIds ids).getD [])) = encodeIds (addId ids id) := by
  cases ids with
  | nil => simp [encodeIds, rmw, addId, intercalateC]
  | cons y ys =>
    have hmap_ne : (y :: ys).map String.data ≠ [] := by simp
    have hwfc : ∀ x ∈ (y :: ys).map String.data, ',' ∉ x := by
      intro x hx
      rcases List.mem_map.mp hx with ⟨z, hz, rfl⟩
      exact (hids z hz).1
    have hsplit : splitC (intercalateC ((y :: ys).map String.data))
        = (y :: ys).map String.data :=
      splitC_intercalateC _ hwfc hmap_ne
    have hjoin_ne : intercalateC ((y :: ys).map String.data) ≠ [] := by
      refine intercalateC_ne_nil _ ?_ hmap_ne
      intro x hx
      rcases List.mem_map.mp hx with ⟨z, hz, rfl⟩
      exact (hids z hz).2
    have hmem_iff : id.data ∈ (y :: ys).map String.data ↔ id ∈ (y :: ys) := by
      constructor
      · intro hx
        rcases List.mem_map.mp hx with ⟨z, hz, hd⟩
        exact (string_data_inj hd) ▸ hz
      · intro hx
        exact List.mem_map.mpr ⟨id, hx, rfl⟩
    simp only [encodeIds, Option.getD_some]
    by_cases hmem : id ∈ (y :: ys)
    · have hin : id.data ∈ splitC (intercalateC ((y :: ys).map String.data)) := by
        rw [hsplit]; exact hmem_iff.mpr hmem
      rw [rmw_noop _ _ hin]
      rw [show addId (y :: ys) id = y :: ys from by unfold addId; rw [if_pos hmem]]
    · have hout : id.data ∉ splitC (intercalateC ((y :: ys).map String.data)) := by
        rw [hsplit]; exact fun hx => hmem (hmem_iff.mp hx)
      rw [show rmw id.data (intercalateC ((y :: ys).map String.data))
          = intercalateC ((y :: ys).map String.data) ++ ',' :: id.data from by
        unfold rmw; rw [if_neg hjoin_ne, if_neg hout]]
      rw [show addId (y :: ys) id = (y :: ys) ++ [id] from by unfold addId; rw [if_neg hmem]]
      have henc : encodeIds ((y :: ys) ++ [id])
          = some (intercalateC ((y :: ys).map String.data) ++ ',' :: id.data) := by
        rw [List.cons_append]
        rw [show encodeIds (y :: (ys ++ [id]))
            = some (intercalateC ((y :: (ys ++ [id])).map String.data)) from rfl]
        rw [show ((y : String) :: (ys ++ [id])).map String.data
            = (y :: ys).map String.data ++ [String.data id] from by simp]
        rw [intercalateC_snoc _ _ hmap_ne]
      exact henc.symm

/-- One `Server.index` call, observed at one key: the entry becomes the
encoding of the ID list with the caller added iff the key is among the
document's flattened pairs. -/
theorem foldIdx_key (id : String) (hid : ',' ∉ id.data) (hne : id.data ≠ []) :
    ∀ (pvs : List String) (db : IndexDb) (key : String) (ids : List String),
      (∀ x ∈ ids, ',' ∉ x.data ∧ x.data ≠ []) →
      db key = encodeIds ids →
      (pvs.foldl (fun db p => idxWrite db p (rmw id.data (idxRead db p))) db) key
        = encodeIds (if key ∈ pvs then addId ids id else ids)
  | [], db, key, ids, _, hdb => by simpa using hdb
  | p :: pvs, db, key, ids, hids, hdb => by
    rw [List.foldl_cons]
    by_cases hp : p = key
    · subst hp
      have hstep : (idxWrite db p (rmw id.data (idxRead db p))) p = encodeIds (addId ids id) := by
        rw [show (idxWrite db p (rmw id.data (idxRead db p))) p
            = some (rmw id.data (idxRead db p)) from by simp [idxWrite]]
        rw [show idxRead db p = (encodeIds ids).getD [] from by simp [idxRead, hdb]]
        exact rmw_encode id hid ids hids
      rw [foldIdx_key id hid hne pvs _ p (addId ids id)
        (addId_wf ids id hids hid hne) hstep]
      by_cases hpv : p ∈ pvs
      · simp [hpv, addId_idem]
      · simp [hpv]
    · have hkp : ¬ key = p := fun hh => hp hh.symm
      have hkeep : (idxWrite db p (rmw id.data (idxRead db p))) key = encodeIds ids := by
        simp [idxWrite, hkp, hdb]
      rw [foldIdx_key id hid hne pvs _ key ids hids hkeep]
      simp [List.mem_cons, hkp]

/-- A run of `Server.index` calls, observed at one key: the entry is the
encoding of the fold that adds each caller whose document carries the key. -/
theorem callsRun_encode :
    ∀ (calls : List (String × Doc)) (db : IndexDb) (key : String) (ids : List String),
      (∀ c ∈ calls, ',' ∉ c.1.data ∧ c.1.data ≠ []) →
      (∀ x ∈ ids, ',' ∉ x.data ∧ x.data ≠ []) →
      db key = encodeIds ids →
      (indexCallsRun calls db) key
        = encodeIds (calls.foldl
            (fun ids c => if key ∈ getPathValues c.2 "" then addId ids c.1 else ids) ids)
  | [], _, _, _, _, _, hdb => by simpa using hdb
  | c0 :: calls, db, key, ids, hcalls, hids, hdb => by
    have h0 := hcalls c0 (by simp)
    have hstep := foldIdx_key c0.1 h0.1 h0.2 (getPathValues c0.2 "") db key ids hids hdb
    rw [show indexCallsRun (c0 :: calls) db
        = indexCallsRun calls (indexDoc c0.1 c0.2 db) from rfl]
    rw [List.foldl_cons]
    by_cases hk : key ∈ getPathValues c0.2 ""
    · rw [if_pos hk] at hstep ⊢
      exact callsRun_encode calls _ key (addId ids c0.1) 
        (fun d hd => hcalls d (List.mem_cons_of_mem c0 hd))
        (addId_wf ids c0.1 hids h0.1 h0.2) hstep
    · rw [if_neg hk] at hstep ⊢
      exact callsRun_encode calls _ key ids
        (fun d hd => hcalls d (List.mem_cons_of_mem c0 hd)) hids hstep

/-- Everything the first-seen deduplication emits comes from the list. -/
theorem dedupNotIn_sub_list : ∀ (L seen : List String) (x : String),
    x ∈ dedupNotIn L seen → x ∈ L
  | [], _, x, hx => by simp [dedupNotIn] at hx
  | a :: L, seen, x, hx => by
    by_cases h : a ∈ seen
    · exact List.mem_cons_of_mem a (dedupNotIn_sub_list L seen x (by simpa [dedupNotIn, h] using hx))
    · simp only [dedupNotIn, if_neg h, List.mem_cons] at hx
      rcases hx with rfl | hx
      · exact List.mem_cons_self x L
      · exact List.mem_cons_of_mem a (dedupNotIn_sub_list L (seen ++ [a]) x hx)

/-- The add-if-absent fold is the accumulator followed by the first-seen
deduplication of the IDs of the calls carrying the key. -/
theorem foldAdd_dedup :
    ∀ (calls : List (String × Doc)) (key : String) (acc : List String),
      calls.foldl (fun ids c => if key ∈ getPathValues c.2 "" then addId ids c.1 else ids) acc
        = acc ++ dedupNotIn
            ((calls.filter (fun c => key ∈ getPathValues c.2 "")).map Prod.fst) acc
  | [], key, acc => by simp [dedupNotIn]
  | c :: calls, key, acc => by
    rw [List.foldl_cons]
    by_cases hk : key ∈ getPathValues c.2 ""
    · rw [if_pos hk, foldAdd_dedup calls key (addId acc c.1)]
      unfold addId
      by_cases hm : c.1 ∈ acc
      · rw [if_pos hm]
        simp [dedupNotIn, hm, hk]
      · rw [if_neg hm]
        simp [dedupNotIn, hm, hk]
    · rw [if_neg hk, foldAdd_dedup calls key acc]
      simp [hk]

/-- Decoding a stored entry encoded from a well-formed ID list gives back
exactly that list. -/
theorem lookup_encode (db : IndexDb) (key : String) (ids : List String)
    (hids : ∀ x ∈ ids, ',' ∉ x.data ∧ x.data ≠ [])
    (h : db key = encodeIds ids) :
    lookupIds db key = ids := by
  cases ids with
  | nil => simp [lookupIds, idxRead, h, encodeIds]
  | cons y ys =>
    have hmap_ne : (y :: ys).map String.data ≠ [] := by simp
    have hwfc : ∀ x ∈ (y :: ys).map String.data, ',' ∉ x := by
      intro x hx
      rcases List.mem_map.mp hx with ⟨z, hz, rfl⟩
      exact (hids z hz).1
    have hjoin_ne : intercalateC ((y :: ys).map String.data) ≠ [] := by
      refine intercalateC_ne_nil _ ?_ hmap_ne
      intro x hx
      rcases List.mem_map.mp hx with ⟨z, hz, rfl⟩
      exact (hids z hz).2
    have hsplit := splitC_intercalateC ((y :: ys).map String.data) hwfc hmap_ne
    rw [show lookupIds db key = (if idxRead db key = [] then []
        else (splitC (idxRead db key)).map (fun l => String.mk l)) from rfl]
    rw [show idxRead db key = intercalateC ((y :: ys).map String.data) from by
      simp [idxRead, h, encodeIds]]
    rw [if_neg hjoin_ne, hsplit, List.map_map]
    have hcomp : ((fun l => String.mk l) ∘ String.data) = (id : String → String) :=
      funext (fun s => rfl)
    rw [hcomp, List.map_id]

/-- C10 (amended): the index stores an entry's ID set comma-separated; for
every sequence of sequential `Index` calls whose document IDs are nonempty
and comma-free, `lookup` returns exactly the distinct IDs previously indexed
under the key — in first-indexed order, without duplicates — and a key that
is absent as well as a key holding an empty value both decode to the empty
set rather than an error. -/
theorem c10_sequential_index_lookup_exact :
    ∀ (calls : List (String × Doc)) (key : String),
      (∀ c ∈ calls, c.1 ≠ "" ∧ ',' ∉ c.1.data) →
      lookupIds (indexCallsRun calls emptyIdx) key = relIds calls key ∧
      (relIds calls key).Nodup ∧
      (∀ (db : IndexDb) (k : String), db k = none ∨ db k = some [] →
        lookupIds db k = []) := by
  intro calls key h
  have hwf : ∀ c ∈ calls, ',' ∉ c.1.data ∧ c.1.data ≠ [] :=
    fun c hc => ⟨(h c hc).2, string_ne_data (h c hc).1⟩
  have henc := callsRun_encode calls emptyIdx key [] hwf (by simp) rfl
  rw [foldAdd_dedup calls key []] at henc
  simp only [List.nil_append] at henc
  have hrel_wf : ∀ x ∈ dedupNotIn
      ((calls.filter (fun c => key ∈ getPathValues c.2 "")).map Prod.fst) [],
      ',' ∉ x.data ∧ x.data ≠ [] := by
    intro x hx
    have hxL := dedupNotIn_sub_list _ _ _ hx
    rcases List.mem_map.mp hxL with ⟨c, hc, rfl⟩
    exact hwf c (List.mem_filter.mp hc).1
  refine ⟨lookup_encode _ key _ hrel_wf henc, dedupNotIn_nodup _ _, ?_⟩
  intro db k hk
  rcases hk with h1 | h1
  · simp [lookupIds, idxRead, h1]
  · simp [lookupIds, idxRead, h1]

/-- Witness for C10: two sequential `Index` calls sharing the pair `a=1`
under IDs "x" and "y"; `lookup` returns exactly ["x", "y"]. -/
theorem c10_sequential_index_lookup_exact_witness :
    (∀ c ∈ [("x", [("a", DocValue.num 1)]), ("y", [("a", DocValue.num 1)])],
      (c.1 : String) ≠ "" ∧ ',' ∉ c.1.data) ∧
    lookupIds (indexCallsRun
        [("x", [("a", DocValue.num 1)]), ("y", [("a", DocValue.num 1)])] emptyIdx) "a=1"
      = ["x", "y"] :=
  ⟨by decide, by
    rw [(c10_sequential_index_lookup_exact
      [("x", [("a", DocValue.num 1)]), ("y", [("a", DocValue.num 1)])] "a=1" (by decide)).1]
    decide⟩

/-- Witness for C6: a query with one ordering comparison and no equality
comparison has an empty candidate set, and the coordinator full-scans the
one-document store, matching it. -/
theorem c6_fallback_witness :
    (if false then [] else idsInAllFn emptyIdx ⟨[⟨["a"], "0", ">"⟩]⟩) = [] ∧
    ((searchRun emptyIdx [("x", [("a", DocValue.num 1)])]
        ⟨[⟨["a"], "0", ">"⟩]⟩ false).scanned.map (fun t => (t.1, t.2.2)))
      = [("x", true)] :=
  ⟨by decide, by
    rw [(c6_index_candidates_and_full_scan_fallback emptyIdx [("x", [("a", DocValue.num 1)])]
      ⟨[⟨["a"], "0", ">"⟩]⟩ false).2 (by decide)]
    simp only [List.map_cons, List.map_nil]
    decide⟩
